import Mathlib

/-!
Formal model of the data-wrangling module `accounts/utils.py` of the
`yamanaka` repository, together with theorems settling the specification
claims about it.

Modelling conventions:
* Python `str` is Lean `String` (a structure holding a `List Char`); the
  Python string helpers used by the code (`strip`, `lower`, `endswith`,
  `replace`, slicing) are modelled as explicit functions on the character
  list, restricted to the ASCII behaviour the data actually exercises.
* Python `float` values are modelled as exact rationals `ℚ` (the standard
  idealisation of floating-point arithmetic); `float(str)` parsing is
  modelled by `pyFloat`, covering the finite decimal literal forms
  (optional sign, digits, decimal point, exponent) that the claims
  exercise.
* Python `None` is `Option.none`; a fallible list index `row[i]` is
  modelled by the optional index `r[i]?`, so an `IndexError` surfaces as
  `none`.
* Python `dict` (insertion ordered) is modelled as an association list.
-/

namespace Yamanaka

/-- ASCII whitespace recognised by Python's `str.strip` (restricted to the
ASCII range). -/
def isPySpace (c : Char) : Bool :=
  c = ' ' || c = '\t' || c = '\n' || c = '\r' || c = '\x0b' || c = '\x0c'

/-- Strip leading and trailing whitespace from a character list. -/
def stripChars (cs : List Char) : List Char :=
  ((cs.dropWhile isPySpace).reverse.dropWhile isPySpace).reverse

/-- Python `str.strip()`. -/
def pyStrip (s : String) : String :=
  String.mk (stripChars s.data)

/-- Python `str.lower()` (ASCII range). -/
def pyLower (s : String) : String :=
  String.mk (s.data.map Char.toLower)

/-- Python `text.replace(",", "")`: remove every comma. -/
def removeCommas (s : String) : String :=
  String.mk (s.data.filter (fun c => !(c = ',')))

/-- Python `text[:-1] if text.endswith("%") else text`: strip one trailing
percent sign when present. -/
def stripPercent (s : String) : String :=
  if s.data.getLast? = some '%' then String.mk s.data.dropLast else s

/-- Numeric value of a list of ASCII digits. -/
def digitsVal (cs : List Char) : ℕ :=
  cs.foldl (fun a c => 10 * a + (c.toNat - 48)) 0

/-- Parse the mantissa part of a float literal: `digits`, `digits.digits`,
`digits.` or `.digits` (at least one digit overall). -/
def parseMantissa (cs : List Char) : Option ℚ :=
  let p := cs.span Char.isDigit
  match p.2 with
  | [] => if p.1 = [] then none else some (digitsVal p.1 : ℚ)
  | c :: rest =>
    if c = '.' then
      let q := rest.span Char.isDigit
      if q.2 = [] then
        if p.1 = [] && q.1 = [] then none
        else some ((digitsVal p.1 : ℚ) + (digitsVal q.1 : ℚ) / (10 : ℚ) ^ q.1.length)
      else none
    else none

/-- Parse an exponent: optional sign followed by a nonempty digit string. -/
def parseExpDigits (cs : List Char) : Option ℤ :=
  match cs with
  | '+' :: t => if t ≠ [] && t.all Char.isDigit then some (digitsVal t : ℤ) else none
  | '-' :: t => if t ≠ [] && t.all Char.isDigit then some (-(digitsVal t : ℤ)) else none
  | t => if t ≠ [] && t.all Char.isDigit then some (digitsVal t : ℤ) else none

/-- Unsigned float literal: mantissa, optionally followed by `e`/`E` and an
exponent. -/
def pyFloatCore (cs : List Char) : Option ℚ :=
  let p := cs.span (fun c => !(c = 'e' || c = 'E'))
  match p.2 with
  | [] => parseMantissa p.1
  | _ :: expPart =>
    match parseMantissa p.1, parseExpDigits expPart with
    | some m, some e => some (m * (10 : ℚ) ^ e)
    | _, _ => none

/-- Model of CPython `float(str)` restricted to finite decimal literals:
surrounding whitespace is stripped, an optional sign is followed by a
decimal mantissa and optional exponent.  (The special forms `inf`/`nan`
and digit-group underscores are outside the scope of the claims.) -/
def pyFloat (s : String) : Option ℚ :=
  match stripChars s.data with
  | [] => none
  | '+' :: t => pyFloatCore t
  | '-' :: t => (pyFloatCore t).map (fun q => -q)
  | cs => pyFloatCore cs

/-- Model of `_parse_float` from `accounts/utils.py` (lines 117-131): `None` and
strings blank after trimming are not numeric; otherwise strip one trailing
`%`, remove all commas, and attempt a float parse. -/
def _parse_float (value : Option String) : Option ℚ :=
  match value with
  | none => none
  | some v =>
    let text := pyStrip v
    if text.data = [] then none
    else pyFloat (removeCommas (stripPercent text))

/-- Lexicographic comparison of character lists by code point, matching
Python string comparison (`[] ≤` anything; otherwise compare heads). -/
def charLeB : List Char → List Char → Bool
  | [], _ => true
  | _ :: _, [] => false
  | a :: as, b :: bs => if a = b then charLeB as bs else decide (a.toNat < b.toNat)

/-- One result entry of `group_and_aggregate`: the dict
`{"group": key, "metric": metric}`. -/
structure Entry where
  group : String
  metric : ℚ
deriving DecidableEq

/-- The sort relation of `results.sort(key=lambda x: (x["group"] is None,
str(x["group"]).lower()))`: group keys are always strings (never `None`),
so the key reduces to the lowercased label. -/
def entryLe (a b : Entry) : Prop :=
  charLeB (pyLower a.group).data (pyLower b.group).data = true

instance entryLeDec : DecidableRel entryLe := fun a b =>
  instDecidableEqBool (charLeB (pyLower a.group).data (pyLower b.group).data) true

/-- Model of `headers.index(name)` (lines 83-84, 227): index of the first occurrence,
`none` in place of `ValueError`.  The auxiliary counter is the number of
cells already scanned. -/
def indexFrom (name : String) : ℕ → List String → Option ℕ
  | _, [] => none
  | i, h :: t => if h = name then some i else indexFrom name (i + 1) t

/-- First index of `name` in `headers`, `none` when absent. -/
def headerIndex (headers : List String) (name : String) : Option ℕ :=
  indexFrom name 0 headers

/-- Model of `groups.setdefault(group_key, []).append(num_val)` on an
insertion-ordered association list. -/
def addToGroups (m : List (String × List ℚ)) (k : String) (v : ℚ) :
    List (String × List ℚ) :=
  match m with
  | [] => [(k, [v])]
  | (k', vs) :: t => if k' = k then (k', vs ++ [v]) :: t else (k', vs) :: addToGroups t k v

/-- The parsed aggregate cell with `0.0` substituted when not numeric
(lines 92-93). -/
def parseOr0 (v : String) : ℚ :=
  (_parse_float (some v)).getD 0

/-- The bucket-building loop of `group_and_aggregate` (lines 88-94).  Row
cells are accessed with no bounds guard, so an out-of-range index
(`IndexError`) makes the whole computation fail with `none`. -/
def buildGroups (gi vi : ℕ) : List (String × List ℚ) → List (List String) →
    Option (List (String × List ℚ))
  | m, [] => some m
  | m, r :: rs =>
    match r[gi]?, r[vi]? with
    | some k, some v => buildGroups gi vi (addToGroups m k (parseOr0 v)) rs
    | _, _ => none

/-- Python `min` of a nonempty list (`0` on the empty list, unused). -/
def minList : List ℚ → ℚ
  | [] => 0
  | x :: xs => xs.foldl min x

/-- Python `max` of a nonempty list (`0` on the empty list, unused). -/
def maxList : List ℚ → ℚ
  | [] => 0
  | x :: xs => xs.foldl max x

/-- The per-bucket reduction of `group_and_aggregate` (lines 97-109). -/
def reduceVals (agg : String) (values : List ℚ) : ℚ :=
  if values = [] then 0
  else if agg = "count" then (values.length : ℚ)
  else if agg = "avg" then values.sum / (values.length : ℚ)
  else if agg = "min" then minList values
  else if agg = "max" then maxList values
  else values.sum

/-- Model of `group_and_aggregate` (lines 67-114).  Returns `none` exactly when a
row access raises `IndexError`; otherwise `some` of the sorted result
list.  `List.insertionSort` is a stable sort, like Python's `list.sort`. -/
def group_and_aggregate (headers : List String) (rows : List (List String))
    (group_by_column aggregate_column : String) (agg : String) :
    Option (List Entry) :=
  if headers = [] then some []
  else
    match headerIndex headers group_by_column, headerIndex headers aggregate_column with
    | some gi, some vi =>
      (buildGroups gi vi [] rows).map (fun groups =>
        List.insertionSort entryLe
          (groups.map (fun p => Entry.mk p.1 (reduceVals agg p.2))))
    | _, _ => some []

/-- The cells collected for column `idx` by `infer_default_columns`
(lines 146-149): over the first 1000 rows, `row[idx]` whenever
`idx < len(row)`. -/
def colVals (rows : List (List String)) (idx : ℕ) : List String :=
  (rows.take 1000).filterMap (fun r => r[idx]?)

/-- Whether a cell parses as numeric. -/
def isNumericCell (v : String) : Bool :=
  (_parse_float (some v)).isSome

/-- The numeric fraction of column `idx` computed by
`infer_default_columns` (lines 151-155): an empty sample contributes
denominator 1, hence fraction 0. -/
def colNumFrac (rows : List (List String)) (idx : ℕ) : ℚ :=
  let vs := colVals rows idx
  let total : ℕ := if vs = [] then 1 else vs.length
  ((vs.filter isNumericCell).length : ℚ) / (total : ℚ)

/-- Value of `len(set(v.strip() for v in column_values[idx] if str(v).strip()))`
(line 169): the number of distinct non-empty trimmed values. -/
def distinctCount (rows : List (List String)) (idx : ℕ) : ℕ :=
  ((((colVals rows idx).map pyStrip).filter (fun v => !(v = ""))).dedup).length

/-- The aggregate-column scan (lines 158-163): running best starts at 1/2,
a column is adopted whenever its fraction is ≥ the current best; the
counter is the index of the next fraction in the list. -/
def aggLoop : ℕ → ℚ → Option ℕ → List ℚ → Option ℕ
  | _, _, pick, [] => pick
  | i, best, pick, r :: t =>
    if best ≤ r then aggLoop (i + 1) r (some i) t else aggLoop (i + 1) best pick t

/-- The group-by scan (lines 166-172): the first column whose numeric
fraction is `< 1/2` and whose distinct count lies in `[2, 50]`. -/
def groupLoop (rows : List (List String)) : ℕ → List ℚ → Option ℕ
  | _, [] => none
  | i, r :: t =>
    if r < 1/2 ∧ 2 ≤ distinctCount rows i ∧ distinctCount rows i ≤ 50 then some i
    else groupLoop rows (i + 1) t

/-- The numeric-fraction list of `infer_default_columns` (lines 151-155). -/
def numFracList (headers : List String) (rows : List (List String)) : List ℚ :=
  (List.range headers.length).map (colNumFrac rows)

/-- Model of `infer_default_columns` (lines 134-180). -/
def infer_default_columns (headers : List String) (rows : List (List String)) :
    Option String × Option String :=
  if headers = [] ∨ rows = [] then (none, none)
  else
    let fracs := numFracList headers rows
    let group_by_idx := (groupLoop rows 0 fracs).getD 0
    let agg_col_idx := (aggLoop 0 (1/2) none fracs).getD (if 1 < headers.length then 1 else 0)
    (headers[group_by_idx]?, headers[agg_col_idx]?)

/-- One insertion into the dict comprehension
`{h: i for i, h in enumerate(headers)}` (line 192): inserting an existing
key overwrites its value in place. -/
def dictInsert (m : List (String × ℕ)) (k : String) (v : ℕ) : List (String × ℕ) :=
  match m with
  | [] => [(k, v)]
  | (k', v') :: t => if k' = k then (k', v) :: t else (k', v') :: dictInsert t k v

/-- Model of the dict comprehension of line 192; a
duplicated header name ends up mapped to its **last** index.  The counter
is the index of the next header. -/
def nameToIdxFrom : ℕ → List (String × ℕ) → List String → List (String × ℕ)
  | _, m, [] => m
  | i, m, h :: t => nameToIdxFrom (i + 1) (dictInsert m h i) t

/-- The full `name_to_idx` dict of `find_best_metric_column`. -/
def nameToIdx (headers : List String) : List (String × ℕ) :=
  nameToIdxFrom 0 [] headers

/-- Association-list lookup (Python `name in name_to_idx` /
`name_to_idx[name]`). -/
def lookupName (m : List (String × ℕ)) (k : String) : Option ℕ :=
  match m with
  | [] => none
  | (k', v) :: t => if k' = k then some v else lookupName t k

/-- Model of `is_numeric_enough(idx)` of `find_best_metric_column` (lines 194-202):
the numeric fraction over the first 1000 rows, counting only rows long
enough to have the cell; `0` when no row does. -/
def is_numeric_enough (rows : List (List String)) (idx : ℕ) : ℚ :=
  let cells := (rows.take 1000).filterMap (fun r => r[idx]?)
  if cells = [] then 0
  else ((cells.filter isNumericCell).length : ℚ) / (cells.length : ℚ)

/-- The acceptance test of the preferred-name loop (lines 206-207): the
name is present in the dict and its resolved column is numeric enough. -/
def prefOK (d : List (String × ℕ)) (rows : List (List String)) (name : String) : Bool :=
  match lookupName d name with
  | some i => decide (1/2 ≤ is_numeric_enough rows i)
  | none => false

/-- The preferred-name loop of `find_best_metric_column` (lines 204-208):
the first preferred name passing `prefOK`. -/
def preferredPick (d : List (String × ℕ)) (rows : List (List String))
    (preferred : List String) : Option String :=
  preferred.find? (prefOK d rows)

/-- The fallback scan of `find_best_metric_column` (lines 211-217), the
same non-strict ≥ rule as the aggregate-column scan. -/
def fallbackScan (headers : List String) (rows : List (List String)) : Option ℕ :=
  aggLoop 0 (1/2) none ((List.range headers.length).map (is_numeric_enough rows))

/-- Model of `find_best_metric_column` (lines 183-218).  A `None` preferred list is
modelled as `[]` (the Python code only iterates a truthy, hence nonempty,
list — iterating the empty list picks nothing either way). -/
def find_best_metric_column (headers : List String) (rows : List (List String))
    (preferred : List String) : Option String :=
  if headers = [] ∨ rows = [] then none
  else
    match preferredPick (nameToIdx headers) rows preferred with
    | some name => some name
    | none => (fallbackScan headers rows).bind (fun i => headers[i]?)

/-- Variant of `find_best_metric_column` whose preferred-name lookup
resolves a duplicated header to its **first** index, written from the
claim that every component resolves name lookups to the first matching
index; compared against the real function, which uses the dict
`nameToIdx` (last index wins). -/
def findBestMetricFirstIdx (headers : List String) (rows : List (List String))
    (preferred : List String) : Option String :=
  if headers = [] ∨ rows = [] then none
  else
    match preferred.find? (fun name =>
        match headerIndex headers name with
        | some i => decide (1/2 ≤ is_numeric_enough rows i)
        | none => false) with
    | some name => some name
    | none => (fallbackScan headers rows).bind (fun i => headers[i]?)

/-- Model of `filter_rows_by_value` (lines 221-230). -/
def filter_rows_by_value (headers : List String) (rows : List (List String))
    (column_name value : String) : List (List String) :=
  if headers = [] ∨ rows = [] then []
  else
    match headerIndex headers column_name with
    | none => []
    | some i =>
      rows.filter (fun r =>
        match r[i]? with
        | some c => pyStrip c = pyStrip value
        | none => false)

/-- Pad with empty strings, then truncate, to length `n` (line 62). -/
def normalizeRow (n : ℕ) (row : List String) : List String :=
  (row ++ List.replicate (n - row.length) "").take n

/-- Truth of `any(cell.strip() for cell in row)` (line 59): some cell is non-blank
after trimming. -/
def hasNonBlankCell (row : List String) : Bool :=
  row.any (fun cell => !(pyStrip cell = ""))

/-- The parse step of `fetch_sheet_as_rows` (lines 55-64): first row,
trimmed, becomes the headers; entirely-blank later rows are dropped; kept
rows are length-normalized to the header count. -/
def parseTable (all_rows : List (List String)) :
    List String × List (List String) :=
  match all_rows with
  | [] => ([], [])
  | first :: rest =>
    let headers := first.map pyStrip
    (headers, (rest.filter hasNonBlankCell).map (normalizeRow headers.length))

/-- UTF-8 bytes of a string, as naturals. -/
def utf8Bytes (s : String) : List ℕ :=
  s.toUTF8.data.toList.map (fun b => b.toNat)

/-- The bytes `urllib.parse.quote` never encodes: ASCII letters, digits,
`_`, `.`, `-`, `~`. -/
def isUnreservedByte (b : ℕ) : Bool :=
  (65 ≤ b && b ≤ 90) || (97 ≤ b && b ≤ 122) || (48 ≤ b && b ≤ 57) ||
    b = 95 || b = 46 || b = 45 || b = 126

/-- Uppercase hexadecimal digit. -/
def hexDigitChar (n : ℕ) : Char :=
  if n < 10 then Char.ofNat (48 + n) else Char.ofNat (55 + n)

/-- Percent-encode one byte. -/
def pctByte (b : ℕ) : List Char :=
  ['%', hexDigitChar (b / 16), hexDigitChar (b % 16)]

/-- Model of `urllib.parse.quote(s, safe="")` (lines 17, 25): every UTF-8 byte
outside the unreserved set is percent-encoded; with `safe=""` no further
byte is exempt. -/
def pyQuote (s : String) : String :=
  String.mk ((utf8Bytes s).foldr
    (fun b acc => (if isUnreservedByte b then [Char.ofNat b] else pctByte b) ++ acc) [])

/-- Model of `build_published_csv_url` (lines 9-18). -/
def build_published_csv_url (sheet_id sheet_name : String) : String :=
  "https://docs.google.com/spreadsheets/d/" ++ sheet_id ++
    "/gviz/tq?tqx=out:csv&sheet=" ++ pyQuote sheet_name

/-- Model of `build_export_csv_url_with_gid` (lines 21-26). -/
def build_export_csv_url_with_gid (sheet_id gid : String) : String :=
  "https://docs.google.com/spreadsheets/d/" ++ sheet_id ++
    "/export?format=csv&gid=" ++ pyQuote gid

/-- Python truthiness of an `Optional[str]`: present and nonempty. -/
def truthyOpt (o : Option String) : Bool :=
  match o with
  | none => false
  | some s => !(s = "")

/-- The URL-resolution prefix of `fetch_sheet_as_rows` (lines 40-45),
everything it does before any network activity: pick the gid export URL
when a gid is supplied, else the sheet-name URL, else fail with the
invalid-arguments error. -/
def resolveUrl (sheet_id : String) (sheet_name gid : Option String) :
    Except String String :=
  if truthyOpt gid then
    Except.ok (build_export_csv_url_with_gid sheet_id (gid.getD ""))
  else if !truthyOpt sheet_name then
    Except.error "Either sheet_name or gid must be provided"
  else
    Except.ok (build_published_csv_url sheet_id (sheet_name.getD ""))

/-- The keys of a groups association list, in insertion order (the
iteration order of the Python dict). -/
def keysOf (m : List (String × List ℚ)) : List String :=
  m.map Prod.fst

/-- First-occurrence association lookup on a groups list (keys are kept
distinct by `addToGroups`, so this is *the* bucket of `k`). -/
def lookupVals (m : List (String × List ℚ)) (k : String) : List ℚ :=
  match m with
  | [] => []
  | (k', vs) :: t => if k' = k then vs else lookupVals t k

/-- The bucket-building fold on total (in-bounds) cell access: what
`buildGroups` computes when no row access is out of range. -/
def pureGroupsFrom (gi vi : ℕ) (m : List (String × List ℚ))
    (rows : List (List String)) : List (String × List ℚ) :=
  rows.foldl (fun m' r => addToGroups m' (r.getD gi "") (parseOr0 (r.getD vi ""))) m

/-- The bucket of group value `k`: the Value-Parser results (with 0
substituted) of the aggregate cells of exactly the rows whose group-by
cell is `k`, in row order. -/
def bucketVals (gi vi : ℕ) (rows : List (List String)) (k : String) : List ℚ :=
  (rows.filter (fun r => decide (r.getD gi "" = k))).map
    (fun r => parseOr0 (r.getD vi ""))

/-- The group-by qualification of `infer_default_columns` (lines 167-170):
numeric fraction below 1/2 and distinct non-empty trimmed value count in
`[2, 50]`. -/
def groupQualified (rows : List (List String)) (i : ℕ) : Prop :=
  colNumFrac rows i < 1/2 ∧ 2 ≤ distinctCount rows i ∧ distinctCount rows i ≤ 50

/-- Ten sample rows realizing the numeric fractions `[9/10, 9/10, 3/10]`
over three columns. -/
def exInferRows : List (List String) :=
  [["1", "1", "1"], ["1", "1", "1"], ["1", "1", "1"], ["1", "1", "z"],
   ["1", "1", "z"], ["1", "1", "z"], ["1", "1", "z"], ["1", "1", "z"],
   ["1", "1", "z"], ["x", "y", "z"]]

/-- The dataset of the spec's end-to-end scenarios (§8). -/
def demoHeaders : List String := ["Program", "Company", "CBR (%)"]

/-- Rows of the spec's end-to-end scenarios (§8). -/
def demoRows : List (List String) :=
  [["A", "X", "10%"], ["A", "Y", "20%"], ["B", "Z", "abc"]]

/-! Helper lemmas. -/

theorem get?_of_lt {α} [Inhabited α] {l : List α} {n : ℕ} (h : n < l.length) :
    l[n]? = some (l.getD n default) := by
  rw [List.getElem?_eq_getElem h, List.getD_eq_getElem?_getD, List.getElem?_eq_getElem h]
  rfl

theorem getD_mem {α} [Inhabited α] {l : List α} {n : ℕ} (h : n < l.length) :
    l.getD n default ∈ l :=
  List.getElem?_mem (get?_of_lt h)

theorem getD_map_range {α} [Inhabited α] (f : ℕ → α) {n j : ℕ} (h : j < n) :
    ((List.range n).map f).getD j default = f j := by
  rw [List.getD_eq_getElem?_getD, List.getElem?_map, List.getElem?_range h]
  rfl

theorem indexFrom_eq_some {name : String} :
    ∀ (l : List String) (i j : ℕ), indexFrom name i l = some j →
      ∃ k, k < l.length ∧ j = i + k ∧ l.getD k "" = name ∧
        ∀ m, m < k → l.getD m "" ≠ name := by
  intro l
  induction l with
  | nil => intro i j h; simp [indexFrom] at h
  | cons h t ih =>
    intro i j hij
    by_cases hh : h = name
    · refine ⟨0, by simp, ?_, by simpa using hh, by omega⟩
      simp [indexFrom, hh] at hij
      omega
    · simp only [indexFrom, if_neg hh] at hij
      obtain ⟨k, hk, hj, hget, hfirst⟩ := ih (i + 1) j hij
      refine ⟨k + 1, by simpa using hk, by omega, by simpa using hget, ?_⟩
      intro m hm
      cases m with
      | zero => simpa using hh
      | succ m => simpa using hfirst m (by omega)

theorem indexFrom_isSome {name : String} :
    ∀ (l : List String) (i : ℕ), name ∈ l → (indexFrom name i l).isSome := by
  intro l
  induction l with
  | nil => intro i h; simp at h
  | cons h t ih =>
    intro i hmem
    by_cases hh : h = name
    · simp [indexFrom, hh]
    · have : name ∈ t := by
        rcases List.mem_cons.mp hmem with h' | h'
        · exact absurd h'.symm hh
        · exact h'
      simpa [indexFrom, hh] using ih (i + 1) this

theorem headerIndex_eq_some {headers : List String} {name : String} {j : ℕ}
    (h : headerIndex headers name = some j) :
    j < headers.length ∧ headers.getD j "" = name ∧
      ∀ m, m < j → headers.getD m "" ≠ name := by
  obtain ⟨k, hk, hj, hget, hfirst⟩ := indexFrom_eq_some headers 0 j h
  have : j = k := by omega
  subst this
  exact ⟨hk, hget, hfirst⟩

theorem headerIndex_isSome {headers : List String} {name : String}
    (h : name ∈ headers) : (headerIndex headers name).isSome :=
  indexFrom_isSome headers 0 h

theorem headerIndex_eq_none {headers : List String} {name : String}
    (h : ¬ name ∈ headers) : headerIndex headers name = none := by
  cases hidx : headerIndex headers name with
  | none => rfl
  | some j =>
    obtain ⟨hlt, hget, _⟩ := headerIndex_eq_some hidx
    exact absurd (hget ▸ getD_mem hlt) h

theorem charLeB_total : ∀ as bs : List Char, charLeB as bs = true ∨ charLeB bs as = true := by
  intro as
  induction as with
  | nil => intro bs; left; rfl
  | cons a as ih =>
    intro bs
    cases bs with
    | nil => right; rfl
    | cons b bs =>
      by_cases hab : a = b
      · subst hab
        rcases ih bs with h | h
        · left; simpa [charLeB] using h
        · right; simpa [charLeB] using h
      · have hne : a.toNat ≠ b.toNat := by
          intro h
          exact hab (Char.eq_of_val_eq (UInt32.toNat.inj h))
        rcases Nat.lt_or_ge a.toNat b.toNat with h | h
        · left; simp [charLeB, hab, h]
        · right
          have hba : ¬ b = a := fun h' => hab h'.symm
          have : b.toNat < a.toNat := by omega
          simp [charLeB, hba, this]

theorem charLeB_trans : ∀ as bs cs : List Char,
    charLeB as bs = true → charLeB bs cs = true → charLeB as cs = true := by
  intro as
  induction as with
  | nil => intro bs cs _ _; rfl
  | cons a as ih =>
    intro bs cs hab hbc
    cases bs with
    | nil => simp [charLeB] at hab
    | cons b bs =>
      cases cs with
      | nil => simp [charLeB] at hbc
      | cons c cs =>
        by_cases h1 : a = b
        · subst h1
          by_cases h2 : a = c
          · subst h2
            simp only [charLeB, if_pos rfl] at hab hbc ⊢
            exact ih bs cs hab hbc
          · simp only [charLeB, if_pos rfl] at hab
            simpa [charLeB, h2] using hbc
        · by_cases h2 : b = c
          · subst h2
            simpa [charLeB, h1] using hab
          · simp only [charLeB, if_neg h1] at hab
            simp only [charLeB, if_neg h2] at hbc
            have hlt1 : a.toNat < b.toNat := of_decide_eq_true hab
            have hlt2 : b.toNat < c.toNat := of_decide_eq_true hbc
            have hlt : a.toNat < c.toNat := Nat.lt_trans hlt1 hlt2
            have hac : ¬ a = c := by
              intro h
              subst h
              omega
            simp [charLeB, hac, hlt]

instance entryLeTotal : IsTotal Entry entryLe :=
  ⟨fun a b => charLeB_total (pyLower a.group).data (pyLower b.group).data⟩

instance entryLeTrans : IsTrans Entry entryLe :=
  ⟨fun a b c hab hbc =>
    charLeB_trans (pyLower a.group).data (pyLower b.group).data (pyLower c.group).data hab hbc⟩

theorem foldl_min_le_init (xs : List ℚ) : ∀ x : ℚ, xs.foldl min x ≤ x := by
  induction xs with
  | nil => intro x; simp
  | cons y ys ih =>
    intro x
    calc (y :: ys).foldl min x = ys.foldl min (min x y) := rfl
    _ ≤ min x y := ih (min x y)
    _ ≤ x := min_le_left x y

theorem foldl_min_le_mem (xs : List ℚ) :
    ∀ (x v : ℚ), v ∈ xs → xs.foldl min x ≤ v := by
  induction xs with
  | nil => intro x v h; simp at h
  | cons y ys ih =>
    intro x v hv
    rcases List.mem_cons.mp hv with h | h
    · subst h
      calc (v :: ys).foldl min x = ys.foldl min (min x v) := rfl
      _ ≤ min x v := foldl_min_le_init ys (min x v)
      _ ≤ v := min_le_right x v
    · exact ih (min x y) v h

theorem foldl_min_mem (xs : List ℚ) :
    ∀ x : ℚ, xs.foldl min x = x ∨ xs.foldl min x ∈ xs := by
  induction xs with
  | nil => intro x; left; rfl
  | cons y ys ih =>
    intro x
    have hstep : (y :: ys).foldl min x = ys.foldl min (min x y) := rfl
    rcases ih (min x y) with h | h
    · rcases min_choice x y with hm | hm
      · left
        rw [hstep, h, hm]
      · right
        rw [hstep, h, hm]
        exact List.mem_cons_self y ys
    · right
      rw [hstep]
      exact List.mem_cons_of_mem y h

theorem minList_mem : ∀ xs : List ℚ, xs ≠ [] → minList xs ∈ xs := by
  intro xs hne
  cases xs with
  | nil => exact absurd rfl hne
  | cons x t =>
    rcases foldl_min_mem t x with h | h
    · rw [minList, h]; exact List.mem_cons_self x t
    · exact List.mem_cons_of_mem x (by rw [minList]; exact h)

theorem minList_le : ∀ (xs : List ℚ) (v : ℚ), v ∈ xs → minList xs ≤ v := by
  intro xs v hv
  cases xs with
  | nil => simp at hv
  | cons x t =>
    rcases List.mem_cons.mp hv with h | h
    · rw [minList, h]; exact foldl_min_le_init t x
    · rw [minList]; exact foldl_min_le_mem t x v h

theorem foldl_max_ge_init (xs : List ℚ) : ∀ x : ℚ, x ≤ xs.foldl max x := by
  induction xs with
  | nil => intro x; simp
  | cons y ys ih =>
    intro x
    calc x ≤ max x y := le_max_left x y
    _ ≤ ys.foldl max (max x y) := ih (max x y)
    _ = (y :: ys).foldl max x := rfl

theorem foldl_max_ge_mem (xs : List ℚ) :
    ∀ (x v : ℚ), v ∈ xs → v ≤ xs.foldl max x := by
  induction xs with
  | nil => intro x v h; simp at h
  | cons y ys ih =>
    intro x v hv
    rcases List.mem_cons.mp hv with h | h
    · subst h
      calc v ≤ max x v := le_max_right x v
      _ ≤ ys.foldl max (max x v) := foldl_max_ge_init ys (max x v)
      _ = (v :: ys).foldl max x := rfl
    · exact ih (max x y) v h

theorem foldl_max_mem (xs : List ℚ) :
    ∀ x : ℚ, xs.foldl max x = x ∨ xs.foldl max x ∈ xs := by
  induction xs with
  | nil => intro x; left; rfl
  | cons y ys ih =>
    intro x
    have hstep : (y :: ys).foldl max x = ys.foldl max (max x y) := rfl
    rcases ih (max x y) with h | h
    · rcases max_choice x y with hm | hm
      · left
        rw [hstep, h, hm]
      · right
        rw [hstep, h, hm]
        exact List.mem_cons_self y ys
    · right
      rw [hstep]
      exact List.mem_cons_of_mem y h

theorem maxList_mem : ∀ xs : List ℚ, xs ≠ [] → maxList xs ∈ xs := by
  intro xs hne
  cases xs with
  | nil => exact absurd rfl hne
  | cons x t =>
    rcases foldl_max_mem t x with h | h
    · rw [maxList, h]; exact List.mem_cons_self x t
    · exact List.mem_cons_of_mem x (by rw [maxList]; exact h)

theorem maxList_ge : ∀ (xs : List ℚ) (v : ℚ), v ∈ xs → v ≤ maxList xs := by
  intro xs v hv
  cases xs with
  | nil => simp at hv
  | cons x t =>
    rcases List.mem_cons.mp hv with h | h
    · rw [maxList, h]; exact foldl_max_ge_init t x
    · rw [maxList]; exact foldl_max_ge_mem t x v h

theorem keysOf_addToGroups (m : List (String × List ℚ)) (k : String) (v : ℚ) :
    keysOf (addToGroups m k v) =
      if k ∈ keysOf m then keysOf m else keysOf m ++ [k] := by
  induction m with
  | nil => simp [keysOf, addToGroups]
  | cons p t ih =>
    obtain ⟨k', vs⟩ := p
    by_cases h : k' = k
    · subst h
      simp [keysOf, addToGroups]
    · have hne : ¬ k = k' := fun h' => h h'.symm
      simp only [addToGroups, if_neg h, keysOf, List.map_cons] at ih ⊢
      rw [ih]
      by_cases hmem : k ∈ List.map Prod.fst t
      · simp [hmem, hne]
      · simp [hmem, hne]

theorem lookupVals_addToGroups (m : List (String × List ℚ)) (k k' : String) (v : ℚ) :
    lookupVals (addToGroups m k v) k' =
      if k = k' then lookupVals m k' ++ [v] else lookupVals m k' := by
  induction m with
  | nil =>
    by_cases h : k = k'
    · simp [addToGroups, lookupVals, h]
    · simp [addToGroups, lookupVals, h]
  | cons p t ih =>
    obtain ⟨a, vs⟩ := p
    by_cases hak : a = k
    · subst hak
      by_cases hkk : a = k'
      · subst hkk
        simp [addToGroups, lookupVals]
      · simp [addToGroups, lookupVals, hkk]
    · by_cases hkk : k = k'
      · subst hkk
        have hak' : ¬ a = k := hak
        simp only [addToGroups, if_neg hak', lookupVals, if_neg hak']
        rw [ih]
        simp
      · by_cases hax : a = k'
        · subst hax
          simp [addToGroups, hak, lookupVals, hkk]
        · simp only [addToGroups, if_neg hak, lookupVals, if_neg hax]
          rw [ih]

theorem nodup_keysOf_addToGroups {m : List (String × List ℚ)} (k : String) (v : ℚ)
    (h : (keysOf m).Nodup) : (keysOf (addToGroups m k v)).Nodup := by
  rw [keysOf_addToGroups]
  by_cases hmem : k ∈ keysOf m
  · simpa [hmem] using h
  · simp only [if_neg hmem]
    exact List.Nodup.append h (List.nodup_singleton k) (by simpa using hmem)

theorem mem_keysOf_addToGroups {m : List (String × List ℚ)} {k k' : String} {v : ℚ} :
    k' ∈ keysOf (addToGroups m k v) ↔ k' ∈ keysOf m ∨ k' = k := by
  rw [keysOf_addToGroups]
  by_cases hmem : k ∈ keysOf m
  · rw [if_pos hmem]
    constructor
    · exact Or.inl
    · rintro (h | h)
      · exact h
      · exact h ▸ hmem
  · rw [if_neg hmem]
    simp

theorem bucketVals_cons (gi vi : ℕ) (r : List String) (rs : List (List String))
    (k : String) :
    bucketVals gi vi (r :: rs) k =
      if r.getD gi "" = k then parseOr0 (r.getD vi "") :: bucketVals gi vi rs k
      else bucketVals gi vi rs k := by
  rw [bucketVals, bucketVals, List.filter_cons]
  by_cases hk : r.getD gi "" = k
  · rw [if_pos (decide_eq_true hk), if_pos hk, List.map_cons]
  · rw [if_neg (by simpa using hk), if_neg hk]

theorem lookupVals_pureGroupsFrom (gi vi : ℕ) :
    ∀ (rows : List (List String)) (m : List (String × List ℚ)) (k : String),
      lookupVals (pureGroupsFrom gi vi m rows) k =
        lookupVals m k ++ bucketVals gi vi rows k := by
  intro rows
  induction rows with
  | nil => intro m k; simp [pureGroupsFrom, bucketVals]
  | cons r rs ih =>
    intro m k
    have hstep : pureGroupsFrom gi vi m (r :: rs) =
        pureGroupsFrom gi vi (addToGroups m (r.getD gi "") (parseOr0 (r.getD vi ""))) rs := rfl
    rw [hstep, ih, lookupVals_addToGroups, bucketVals_cons]
    by_cases hk : r.getD gi "" = k
    · rw [if_pos hk, if_pos hk, List.append_assoc, List.singleton_append]
    · rw [if_neg hk, if_neg hk]

theorem mem_keysOf_pureGroupsFrom (gi vi : ℕ) :
    ∀ (rows : List (List String)) (m : List (String × List ℚ)) (k : String),
      k ∈ keysOf (pureGroupsFrom gi vi m rows) ↔
        k ∈ keysOf m ∨ ∃ r ∈ rows, r.getD gi "" = k := by
  intro rows
  induction rows with
  | nil => intro m k; simp [pureGroupsFrom]
  | cons r rs ih =>
    intro m k
    have hstep : pureGroupsFrom gi vi m (r :: rs) =
        pureGroupsFrom gi vi (addToGroups m (r.getD gi "") (parseOr0 (r.getD vi ""))) rs := rfl
    rw [hstep, ih]
    constructor
    · rintro (hmem | ⟨r', hr', hk⟩)
      · rcases mem_keysOf_addToGroups.mp hmem with h | h
        · exact Or.inl h
        · exact Or.inr ⟨r, by simp, h.symm⟩
      · exact Or.inr ⟨r', List.mem_cons_of_mem r hr', hk⟩
    · rintro (hmem | ⟨r', hr', hk⟩)
      · exact Or.inl (mem_keysOf_addToGroups.mpr (Or.inl hmem))
      · rcases List.mem_cons.mp hr' with h' | h'
        · subst h'
          exact Or.inl (mem_keysOf_addToGroups.mpr (Or.inr hk.symm))
        · exact Or.inr ⟨r', h', hk⟩

theorem nodup_keysOf_pureGroupsFrom (gi vi : ℕ) :
    ∀ (rows : List (List String)) (m : List (String × List ℚ)),
      (keysOf m).Nodup → (keysOf (pureGroupsFrom gi vi m rows)).Nodup := by
  intro rows
  induction rows with
  | nil => intro m h; exact h
  | cons r rs ih =>
    intro m h
    exact ih _ (nodup_keysOf_addToGroups _ _ h)

theorem buildGroups_eq_pure (gi vi : ℕ) :
    ∀ (rows : List (List String)) (m : List (String × List ℚ)),
      (∀ r ∈ rows, gi < r.length ∧ vi < r.length) →
      buildGroups gi vi m rows = some (pureGroupsFrom gi vi m rows) := by
  intro rows
  induction rows with
  | nil => intro m _; rfl
  | cons r rs ih =>
    intro m hb
    obtain ⟨hg, hv⟩ := hb r (by simp)
    have h1 : r[gi]? = some (r.getD gi "") := get?_of_lt hg
    have h2 : r[vi]? = some (r.getD vi "") := get?_of_lt hv
    have hstep : pureGroupsFrom gi vi m (r :: rs) =
        pureGroupsFrom gi vi (addToGroups m (r.getD gi "") (parseOr0 (r.getD vi ""))) rs := rfl
    rw [hstep]
    simp only [buildGroups, h1, h2]
    exact ih _ (fun r' hr' => hb r' (List.mem_cons_of_mem r hr'))

theorem buildGroups_none (gi vi : ℕ) :
    ∀ (rows : List (List String)) (m : List (String × List ℚ)),
      (∃ r ∈ rows, r.length ≤ gi ∨ r.length ≤ vi) →
      buildGroups gi vi m rows = none := by
  intro rows
  induction rows with
  | nil => intro m h; simp at h
  | cons r rs ih =>
    intro m hb
    obtain ⟨rbad, hmem, hbad⟩ := hb
    rcases List.mem_cons.mp hmem with h' | h'
    · subst h'
      rcases hbad with hlen | hlen
      · have h1 : rbad[gi]? = none := List.getElem?_eq_none hlen
        cases h2 : rbad[vi]? <;> simp [buildGroups, h1, h2]
      · have h1 : rbad[vi]? = none := List.getElem?_eq_none hlen
        cases h2 : rbad[gi]? <;> simp [buildGroups, h1, h2]
    · cases h1 : r[gi]? with
      | none => simp [buildGroups, h1]
      | some k =>
        cases h2 : r[vi]? with
        | none => simp [buildGroups, h1, h2]
        | some v =>
          simp only [buildGroups, h1, h2]
          exact ih _ ⟨rbad, h', hbad⟩

theorem lookupVals_of_mem_nodup :
    ∀ (m : List (String × List ℚ)) (k : String) (vs : List ℚ),
      (keysOf m).Nodup → (k, vs) ∈ m → lookupVals m k = vs := by
  intro m
  induction m with
  | nil => intro k vs _ h; simp at h
  | cons p t ih =>
    intro k vs hnd hmem
    obtain ⟨a, ws⟩ := p
    have hnd' : (keysOf t).Nodup ∧ a ∉ keysOf t := by
      simp only [keysOf, List.map_cons, List.nodup_cons] at hnd
      exact ⟨hnd.2, hnd.1⟩
    rcases List.mem_cons.mp hmem with h' | h'
    · injection h' with h1 h2
      rw [lookupVals, if_pos h1.symm]
      exact h2.symm
    · have hk : k ∈ keysOf t := by
        simp only [keysOf, List.mem_map]
        exact ⟨(k, vs), h', rfl⟩
      have hak : ¬ a = k := fun h => (h ▸ hnd'.2) hk
      rw [lookupVals, if_neg hak]
      exact ih k vs hnd'.1 h'

theorem headerIndex_nil (name : String) : headerIndex [] name = none := rfl

theorem group_and_aggregate_eq {headers : List String} {rows : List (List String)}
    {g a : String} (tag : String) {gi vi : ℕ}
    (hg : headerIndex headers g = some gi) (ha : headerIndex headers a = some vi)
    (hb : ∀ r ∈ rows, gi < r.length ∧ vi < r.length) :
    group_and_aggregate headers rows g a tag =
      some (List.insertionSort entryLe
        ((pureGroupsFrom gi vi [] rows).map
          (fun p => Entry.mk p.1 (reduceVals tag p.2)))) := by
  have hne : headers ≠ [] := by
    intro h
    rw [h, headerIndex_nil] at hg
    exact Option.noConfusion hg
  simp only [group_and_aggregate, if_neg hne, hg, ha]
  rw [buildGroups_eq_pure gi vi rows [] hb]
  rfl

theorem entriesLabels (tag : String) (m : List (String × List ℚ)) :
    (m.map (fun p => Entry.mk p.1 (reduceVals tag p.2))).map Entry.group = keysOf m := by
  rw [List.map_map]
  rfl

theorem bucketVals_ne_nil {gi vi : ℕ} {rows : List (List String)} {r : List String}
    (hr : r ∈ rows) : bucketVals gi vi rows (r.getD gi "") ≠ [] := by
  have hfil : r ∈ rows.filter (fun r' => decide (r'.getD gi "" = r.getD gi "")) :=
    List.mem_filter.mpr ⟨hr, by simp⟩
  exact List.ne_nil_of_mem (List.mem_map_of_mem _ hfil)

theorem inBounds_of_len {headers : List String} {rows : List (List String)}
    {gi vi : ℕ} (hlen : ∀ r ∈ rows, r.length = headers.length)
    (hgi : gi < headers.length) (hvi : vi < headers.length) :
    ∀ r ∈ rows, gi < r.length ∧ vi < r.length := by
  intro r hr
  rw [hlen r hr]
  exact ⟨hgi, hvi⟩

/-- C2: for a dataset whose group-by and aggregate column names both occur
in the headers, `group_and_aggregate` buckets every row under the exact
string in its group-by cell, appends the Value-Parser result of its
aggregate cell (0.0 when not numeric), and reduces each bucket by the tag:
`count` = bucket size, `avg` = arithmetic mean, `min`/`max` = extremum,
`sum`/anything else = sum; when either column is absent (or the headers
are empty), the result is empty. -/
theorem c2_group_and_aggregate_buckets (headers : List String)
    (rows : List (List String)) (g a tag : String)
    (hlen : ∀ r ∈ rows, r.length = headers.length) :
    ((¬ g ∈ headers ∨ ¬ a ∈ headers) →
      group_and_aggregate headers rows g a tag = some [])
    ∧ (∀ gi vi, headerIndex headers g = some gi → headerIndex headers a = some vi →
        ∃ l, group_and_aggregate headers rows g a tag = some l ∧
          (∀ e ∈ l,
            bucketVals gi vi rows e.group ≠ [] ∧
            (tag = "count" →
              e.metric = ((bucketVals gi vi rows e.group).length : ℚ)) ∧
            (tag = "avg" →
              e.metric = (bucketVals gi vi rows e.group).sum /
                ((bucketVals gi vi rows e.group).length : ℚ)) ∧
            (tag = "min" → e.metric ∈ bucketVals gi vi rows e.group ∧
              ∀ v ∈ bucketVals gi vi rows e.group, e.metric ≤ v) ∧
            (tag = "max" → e.metric ∈ bucketVals gi vi rows e.group ∧
              ∀ v ∈ bucketVals gi vi rows e.group, v ≤ e.metric) ∧
            (tag ≠ "count" → tag ≠ "avg" → tag ≠ "min" → tag ≠ "max" →
              e.metric = (bucketVals gi vi rows e.group).sum)) ∧
          (∀ r ∈ rows, ∃ e ∈ l, e.group = r.getD gi "")) := by
  constructor
  · intro habs
    by_cases hne : headers = []
    · simp [group_and_aggregate, hne]
    · rcases habs with h | h
      · have hidx := headerIndex_eq_none h
        cases ha : headerIndex headers a <;>
          simp [group_and_aggregate, hne, hidx, ha]
      · have hidx := headerIndex_eq_none h
        cases hg : headerIndex headers g <;>
          simp [group_and_aggregate, hne, hidx, hg]
  · intro gi vi hg ha
    obtain ⟨hgi, _, _⟩ := headerIndex_eq_some hg
    obtain ⟨hvi, _, _⟩ := headerIndex_eq_some ha
    have hb := inBounds_of_len hlen hgi hvi
    refine ⟨_, group_and_aggregate_eq tag hg ha hb, ?_, ?_⟩
    · intro e he
      have hperm := List.perm_insertionSort entryLe
        ((pureGroupsFrom gi vi [] rows).map (fun p => Entry.mk p.1 (reduceVals tag p.2)))
      have he' : e ∈ (pureGroupsFrom gi vi [] rows).map
          (fun p => Entry.mk p.1 (reduceVals tag p.2)) := hperm.mem_iff.mp he
      obtain ⟨p, hp, hpe⟩ := List.mem_map.mp he'
      have hnd : (keysOf (pureGroupsFrom gi vi [] rows)).Nodup :=
        nodup_keysOf_pureGroupsFrom gi vi rows [] (by simp [keysOf])
      have hvals : lookupVals (pureGroupsFrom gi vi [] rows) p.1 = p.2 :=
        lookupVals_of_mem_nodup _ p.1 p.2 hnd (by simpa using hp)
      have hbucket : p.2 = bucketVals gi vi rows p.1 := by
        have := lookupVals_pureGroupsFrom gi vi rows [] p.1
        rw [hvals] at this
        simpa [lookupVals] using this
      have hgmem : p.1 ∈ keysOf (pureGroupsFrom gi vi [] rows) := by
        simp only [keysOf, List.mem_map]
        exact ⟨p, hp, rfl⟩
      obtain ⟨r, hr, hrk⟩ := ((mem_keysOf_pureGroupsFrom gi vi rows [] p.1).mp hgmem).resolve_left
        (by simp [keysOf])
      have hgrp : e.group = p.1 := by rw [← hpe]
      have hmet : e.metric = reduceVals tag p.2 := by rw [← hpe]
      have hne2 : bucketVals gi vi rows e.group ≠ [] := by
        rw [hgrp, ← hrk]
        exact bucketVals_ne_nil hr
      have hbv : bucketVals gi vi rows e.group = p.2 := by
        rw [hgrp, ← hbucket]
      refine ⟨hne2, ?_, ?_, ?_, ?_, ?_⟩
      · intro htag
        rw [hmet, hbv, reduceVals, if_neg (hbv ▸ hne2), if_pos htag]
      · intro htag
        rw [hmet, hbv, reduceVals, if_neg (hbv ▸ hne2)]
        rw [htag]
        rfl
      · intro htag
        have : e.metric = minList p.2 := by
          rw [hmet, reduceVals, if_neg (hbv ▸ hne2), htag]
          rfl
        rw [hbv, this]
        exact ⟨minList_mem p.2 (hbv ▸ hne2), fun v hv => minList_le p.2 v hv⟩
      · intro htag
        have : e.metric = maxList p.2 := by
          rw [hmet, reduceVals, if_neg (hbv ▸ hne2), htag]
          rfl
        rw [hbv, this]
        exact ⟨maxList_mem p.2 (hbv ▸ hne2), fun v hv => maxList_ge p.2 v hv⟩
      · intro h1 h2 h3 h4
        rw [hmet, hbv, reduceVals, if_neg (hbv ▸ hne2),
          if_neg h1, if_neg h2, if_neg h3, if_neg h4]
    · intro r hr
      have hkmem : r.getD gi "" ∈ keysOf (pureGroupsFrom gi vi [] rows) :=
        (mem_keysOf_pureGroupsFrom gi vi rows [] _).mpr (Or.inr ⟨r, hr, rfl⟩)
      obtain ⟨p, hp, hpk⟩ := List.mem_map.mp hkmem
      have hperm := List.perm_insertionSort entryLe
        ((pureGroupsFrom gi vi [] rows).map (fun p => Entry.mk p.1 (reduceVals tag p.2)))
      refine ⟨Entry.mk p.1 (reduceVals tag p.2), ?_, ?_⟩
      · exact hperm.mem_iff.mpr (List.mem_map_of_mem _ hp)
      · exact hpk

/-- C3: under the same column-occurrence precondition (and length-normalized
rows), the output of `group_and_aggregate` is deterministic, sorted
ascending by case-insensitive lexical comparison of the group labels, and
its labels are exactly the distinct group-by cell values of the input
rows. -/
theorem c3_group_and_aggregate_sorted (headers : List String)
    (rows : List (List String)) (g a tag : String) (gi vi : ℕ)
    (hlen : ∀ r ∈ rows, r.length = headers.length)
    (hg : headerIndex headers g = some gi) (ha : headerIndex headers a = some vi) :
    group_and_aggregate headers rows g a tag = group_and_aggregate headers rows g a tag
    ∧ ∃ l, group_and_aggregate headers rows g a tag = some l ∧
        List.Sorted entryLe l ∧
        (l.map Entry.group).Nodup ∧
        (∀ s, s ∈ l.map Entry.group ↔ ∃ r ∈ rows, r.getD gi "" = s) := by
  refine ⟨rfl, ?_⟩
  obtain ⟨hgi, _, _⟩ := headerIndex_eq_some hg
  obtain ⟨hvi, _, _⟩ := headerIndex_eq_some ha
  have hb := inBounds_of_len hlen hgi hvi
  refine ⟨_, group_and_aggregate_eq tag hg ha hb, ?_, ?_, ?_⟩
  · exact List.sorted_insertionSort entryLe _
  · have hperm := (List.perm_insertionSort entryLe
      ((pureGroupsFrom gi vi [] rows).map (fun p => Entry.mk p.1 (reduceVals tag p.2)))).map
      Entry.group
    rw [entriesLabels] at hperm
    have hnd : (keysOf (pureGroupsFrom gi vi [] rows)).Nodup :=
      nodup_keysOf_pureGroupsFrom gi vi rows [] (by simp [keysOf])
    exact hperm.symm.nodup hnd
  · intro s
    have hperm := (List.perm_insertionSort entryLe
      ((pureGroupsFrom gi vi [] rows).map (fun p => Entry.mk p.1 (reduceVals tag p.2)))).map
      Entry.group
    rw [entriesLabels] at hperm
    rw [hperm.mem_iff]
    rw [mem_keysOf_pureGroupsFrom gi vi rows [] s]
    constructor
    · rintro (h | h)
      · simp [keysOf] at h
      · exact h
    · exact Or.inr

/-- C10: `group_and_aggregate` indexes rows with no bounds guard; when
every row's length equals the header count every access is in bounds and
the function is total (`isSome`), and the precondition is necessary: any
row no longer than either resolved column index makes the whole call fail
(`none`, the Python `IndexError`). -/
theorem c10_group_and_aggregate_bounds (headers : List String)
    (rows : List (List String)) (g a tag : String) :
    ((∀ r ∈ rows, r.length = headers.length) →
      (group_and_aggregate headers rows g a tag).isSome = true)
    ∧ (∀ gi vi, headerIndex headers g = some gi → headerIndex headers a = some vi →
        (∃ r ∈ rows, r.length ≤ gi ∨ r.length ≤ vi) →
        group_and_aggregate headers rows g a tag = none) := by
  constructor
  · intro hlen
    by_cases hne : headers = []
    · simp [group_and_aggregate, hne]
    · cases hg : headerIndex headers g with
      | none => simp [group_and_aggregate, hne, hg]
      | some gi =>
        cases ha : headerIndex headers a with
        | none => simp [group_and_aggregate, hne, hg, ha]
        | some vi =>
          obtain ⟨hgi, _, _⟩ := headerIndex_eq_some hg
          obtain ⟨hvi, _, _⟩ := headerIndex_eq_some ha
          rw [group_and_aggregate_eq tag hg ha (inBounds_of_len hlen hgi hvi)]
          rfl
  · intro gi vi hg ha hbad
    have hne : headers ≠ [] := by
      intro h
      rw [h, headerIndex_nil] at hg
      exact Option.noConfusion hg
    simp only [group_and_aggregate, if_neg hne, hg, ha]
    rw [buildGroups_none gi vi rows [] hbad]
    rfl

theorem aggLoop_of_all_lt :
    ∀ (t : List ℚ) (i : ℕ) (best : ℚ) (pick : Option ℕ),
      (∀ r ∈ t, r < best) → aggLoop i best pick t = pick := by
  intro t
  induction t with
  | nil => intro i best pick _; rfl
  | cons r rs ih =>
    intro i best pick hall
    have hr : r < best := hall r (by simp)
    rw [aggLoop, if_neg (not_le.mpr hr)]
    exact ih (i + 1) best pick (fun r' hr' => hall r' (List.mem_cons_of_mem r hr'))

theorem aggLoop_of_exists :
    ∀ (t : List ℚ) (i : ℕ) (best : ℚ) (pick : Option ℕ),
      (∃ r ∈ t, best ≤ r) →
      ∃ k, k < t.length ∧ aggLoop i best pick t = some (i + k) ∧
        best ≤ t.getD k 0 ∧
        (∀ m, m < t.length → t.getD m 0 ≤ t.getD k 0) ∧
        (∀ m, k < m → m < t.length → t.getD m 0 < t.getD k 0) := by
  intro t
  induction t with
  | nil => intro i best pick h; simp at h
  | cons r rs ih =>
    intro i best pick hex
    by_cases hbr : best ≤ r
    · rw [aggLoop, if_pos hbr]
      by_cases hex2 : ∃ r' ∈ rs, r ≤ r'
      · obtain ⟨k', hk', heq, hle, hmax, hstrict⟩ := ih (i + 1) r (some i) hex2
        refine ⟨k' + 1, by simpa using hk', by rw [heq]; congr 1; omega, ?_, ?_, ?_⟩
        · calc best ≤ r := hbr
          _ ≤ rs.getD k' 0 := hle
          _ = (r :: rs).getD (k' + 1) 0 := rfl
        · intro m hm
          cases m with
          | zero =>
            calc (r :: rs).getD 0 0 = r := rfl
            _ ≤ rs.getD k' 0 := hle
            _ = (r :: rs).getD (k' + 1) 0 := rfl
          | succ m => exact hmax m (by simpa using hm)
        · intro m hm1 hm2
          cases m with
          | zero => omega
          | succ m => exact hstrict m (by omega) (by simpa using hm2)
      · push_neg at hex2
        have hall : ∀ r' ∈ rs, r' < r := hex2
        rw [aggLoop_of_all_lt rs (i + 1) r (some i) hall]
        refine ⟨0, by simp, by rw [Nat.add_zero], le_refl best |>.trans hbr, ?_, ?_⟩
        · intro m hm
          cases m with
          | zero => exact le_refl _
          | succ m =>
            have : rs.getD m 0 < r := by
              apply hall
              exact getD_mem (by simpa using hm)
            exact le_of_lt this
        · intro m hm1 hm2
          cases m with
          | zero => omega
          | succ m =>
            apply hall
            exact getD_mem (by simpa using hm2)
    · rw [aggLoop, if_neg hbr]
      have hex' : ∃ r' ∈ rs, best ≤ r' := by
        obtain ⟨r', hr', hle⟩ := hex
        rcases List.mem_cons.mp hr' with h | h
        · exact absurd (h ▸ hle) hbr
        · exact ⟨r', h, hle⟩
      obtain ⟨k', hk', heq, hle, hmax, hstrict⟩ := ih (i + 1) best pick hex'
      refine ⟨k' + 1, by simpa using hk', by rw [heq]; congr 1; omega, hle, ?_, ?_⟩
      · intro m hm
        cases m with
        | zero =>
          calc (r :: rs).getD 0 0 = r := rfl
          _ ≤ rs.getD k' 0 := le_of_lt (lt_of_lt_of_le (not_le.mp hbr) hle)
          _ = (r :: rs).getD (k' + 1) 0 := rfl
        | succ m => exact hmax m (by simpa using hm)
      · intro m hm1 hm2
        cases m with
        | zero => omega
        | succ m => exact hstrict m (by omega) (by simpa using hm2)

theorem groupLoop_eq_none (rows : List (List String)) :
    ∀ (t : List ℚ) (i : ℕ),
      groupLoop rows i t = none →
      ∀ m, m < t.length →
        ¬(t.getD m 0 < 1/2 ∧ 2 ≤ distinctCount rows (i + m) ∧
          distinctCount rows (i + m) ≤ 50) := by
  intro t
  induction t with
  | nil => intro i _ m hm; simp at hm
  | cons r rs ih =>
    intro i hnone m hm
    by_cases hc : r < 1/2 ∧ 2 ≤ distinctCount rows i ∧ distinctCount rows i ≤ 50
    · rw [groupLoop, if_pos hc] at hnone
      exact Option.noConfusion hnone
    · rw [groupLoop, if_neg hc] at hnone
      cases m with
      | zero => simpa using hc
      | succ m =>
        have := ih (i + 1) hnone m (by simpa using hm)
        intro hcontra
        apply this
        have : i + 1 + m = i + (m + 1) := by omega
        rw [this]
        exact hcontra

theorem groupLoop_eq_some (rows : List (List String)) :
    ∀ (t : List ℚ) (i j : ℕ),
      groupLoop rows i t = some j →
      ∃ k, k < t.length ∧ j = i + k ∧
        (t.getD k 0 < 1/2 ∧ 2 ≤ distinctCount rows j ∧ distinctCount rows j ≤ 50) ∧
        ∀ m, m < k →
          ¬(t.getD m 0 < 1/2 ∧ 2 ≤ distinctCount rows (i + m) ∧
            distinctCount rows (i + m) ≤ 50) := by
  intro t
  induction t with
  | nil => intro i j h; simp [groupLoop] at h
  | cons r rs ih =>
    intro i j hsome
    by_cases hc : r < 1/2 ∧ 2 ≤ distinctCount rows i ∧ distinctCount rows i ≤ 50
    · rw [groupLoop, if_pos hc] at hsome
      injection hsome with hj
      refine ⟨0, by simp, by omega, ?_, by omega⟩
      subst hj
      exact hc
    · rw [groupLoop, if_neg hc] at hsome
      obtain ⟨k, hk, hj, hqual, hfirst⟩ := ih (i + 1) j hsome
      refine ⟨k + 1, by simpa using hk, by omega, hqual, ?_⟩
      intro m hm
      cases m with
      | zero => simpa using hc
      | succ m =>
        have := hfirst m (by omega)
        intro hcontra
        apply this
        have heq : i + 1 + m = i + (m + 1) := by omega
        rw [heq]
        exact hcontra

theorem find?_first {α} [Inhabited α] (p : α → Bool) :
    ∀ (l : List α) (a : α), l.find? p = some a →
      ∃ k, k < l.length ∧ l.getD k default = a ∧ p a = true ∧
        ∀ m, m < k → p (l.getD m default) = false := by
  intro l
  induction l with
  | nil => intro a h; simp at h
  | cons x xs ih =>
    intro a hfind
    by_cases hx : p x = true
    · rw [List.find?_cons_of_pos _ hx] at hfind
      injection hfind with ha
      exact ⟨0, by simp, ha, ha ▸ hx, by omega⟩
    · have hx' : p x = false := by simpa using hx
      rw [List.find?_cons_of_neg _ (by simp [hx'])] at hfind
      obtain ⟨k, hk, hget, hpa, hfirst⟩ := ih a hfind
      refine ⟨k + 1, by simpa using hk, hget, hpa, ?_⟩
      intro m hm
      cases m with
      | zero => exact hx'
      | succ m => exact hfirst m (by omega)

theorem getD_mem_of_lt {α} (d : α) {l : List α} {n : ℕ} (h : n < l.length) :
    l.getD n d ∈ l := by
  rw [List.getD_eq_getElem?_getD, List.getElem?_eq_getElem h]
  exact List.getElem_mem h

theorem numFracList_getD {headers : List String} {rows : List (List String)}
    {j : ℕ} (h : j < headers.length) :
    (numFracList headers rows).getD j 0 = colNumFrac rows j := by
  rw [numFracList, List.getD_eq_getElem?_getD, List.getElem?_map, List.getElem?_range h]
  rfl

theorem numFracList_length (headers : List String) (rows : List (List String)) :
    (numFracList headers rows).length = headers.length := by
  simp [numFracList]

theorem mem_numFracList {headers : List String} {rows : List (List String)} {r : ℚ}
    (h : r ∈ numFracList headers rows) :
    ∃ j, j < headers.length ∧ r = colNumFrac rows j := by
  rw [numFracList] at h
  obtain ⟨j, hj, hr⟩ := List.mem_map.mp h
  exact ⟨j, List.mem_range.mp hj, hr.symm⟩

theorem aggScan_cases (headers : List String) (rows : List (List String)) :
    ((∃ i, i < headers.length ∧ 1/2 ≤ colNumFrac rows i) →
      ∃ k, k < headers.length ∧
        aggLoop 0 (1/2) none (numFracList headers rows) = some k ∧
        1/2 ≤ colNumFrac rows k ∧
        (∀ j, j < headers.length → colNumFrac rows j ≤ colNumFrac rows k) ∧
        (∀ j, k < j → j < headers.length → colNumFrac rows j < colNumFrac rows k))
    ∧ ((∀ i, i < headers.length → colNumFrac rows i < 1/2) →
        aggLoop 0 (1/2) none (numFracList headers rows) = none) := by
  constructor
  · rintro ⟨i, hi, hle⟩
    have hlen := numFracList_length headers rows
    have hex : ∃ r ∈ numFracList headers rows, 1/2 ≤ r := by
      refine ⟨(numFracList headers rows).getD i 0, getD_mem_of_lt 0 (by omega), ?_⟩
      rw [numFracList_getD hi]
      exact hle
    obtain ⟨k, hk, heq, hge, hmax, hstrict⟩ :=
      aggLoop_of_exists (numFracList headers rows) 0 (1/2) none hex
    have hkn : k < headers.length := by omega
    refine ⟨k, hkn, by simpa using heq, ?_, ?_, ?_⟩
    · rw [numFracList_getD hkn] at hge
      exact hge
    · intro j hj
      have := hmax j (by omega)
      rw [numFracList_getD hj, numFracList_getD hkn] at this
      exact this
    · intro j hkj hj
      have := hstrict j hkj (by omega)
      rw [numFracList_getD hj, numFracList_getD hkn] at this
      exact this
  · intro hall
    apply aggLoop_of_all_lt
    intro r hr
    obtain ⟨j, hj, hrj⟩ := mem_numFracList hr
    exact hrj ▸ hall j hj

theorem groupScan_cases (headers : List String) (rows : List (List String)) :
    ((∃ i, i < headers.length ∧ groupQualified rows i) →
      ∃ k, k < headers.length ∧
        groupLoop rows 0 (numFracList headers rows) = some k ∧
        groupQualified rows k ∧
        (∀ j, j < k → ¬ groupQualified rows j))
    ∧ ((∀ i, i < headers.length → ¬ groupQualified rows i) →
        groupLoop rows 0 (numFracList headers rows) = none) := by
  have hlen := numFracList_length headers rows
  constructor
  · rintro ⟨i, hi, hqual⟩
    cases hG : groupLoop rows 0 (numFracList headers rows) with
    | none =>
      exfalso
      have := groupLoop_eq_none rows (numFracList headers rows) 0 hG i (by omega)
      apply this
      rw [numFracList_getD hi]
      simpa [groupQualified] using hqual
    | some j =>
      obtain ⟨k, hk, hjk, hqualj, hfirst⟩ :=
        groupLoop_eq_some rows (numFracList headers rows) 0 j hG
      have hjeq : k = j := by omega
      subst hjeq
      have hjn : k < headers.length := by omega
      refine ⟨k, hjn, rfl, ?_, ?_⟩
      · rw [numFracList_getD hjn] at hqualj
        exact hqualj
      · intro m hm
        have := hfirst m hm
        rw [numFracList_getD (by omega : m < headers.length)] at this
        simpa [groupQualified] using this
  · intro hall
    cases hG : groupLoop rows 0 (numFracList headers rows) with
    | none => rfl
    | some j =>
      exfalso
      obtain ⟨k, hk, hjk, hqualj, _⟩ :=
        groupLoop_eq_some rows (numFracList headers rows) 0 j hG
      have hjeq : k = j := by omega
      subst hjeq
      have hjn : k < headers.length := by omega
      apply hall k hjn
      rw [numFracList_getD hjn] at hqualj
      exact hqualj

/-- C4: `infer_default_columns` returns `(none, none)` on empty headers or
rows; otherwise, over at most the first 1000 rows, the aggregate column is
the last column attaining the maximum numeric fraction under the
non-strict `≥` scan starting at threshold 1/2, the group-by column is the
first column with fraction below 1/2 and distinct non-empty trimmed value
count in `[2, 50]`, and the fallbacks are group-by index 0, aggregate
index 1 (when at least two columns exist, else 0). -/
theorem c4_infer_default_columns (headers : List String)
    (rows : List (List String)) (hh : headers ≠ []) (hr : rows ≠ []) :
    (∀ rows', infer_default_columns [] rows' = (none, none))
    ∧ (∀ headers', infer_default_columns headers' [] = (none, none))
    ∧ ∃ gIdx aIdx, gIdx < headers.length ∧ aIdx < headers.length ∧
        infer_default_columns headers rows =
          (some (headers.getD gIdx ""), some (headers.getD aIdx "")) ∧
        ((∃ i, i < headers.length ∧ 1/2 ≤ colNumFrac rows i) →
          (1/2 ≤ colNumFrac rows aIdx ∧
            (∀ j, j < headers.length → colNumFrac rows j ≤ colNumFrac rows aIdx) ∧
            (∀ j, aIdx < j → j < headers.length →
              colNumFrac rows j < colNumFrac rows aIdx)))
        ∧ ((∀ i, i < headers.length → colNumFrac rows i < 1/2) →
            aIdx = if 1 < headers.length then 1 else 0)
        ∧ ((∃ i, i < headers.length ∧ groupQualified rows i) →
            (groupQualified rows gIdx ∧ ∀ j, j < gIdx → ¬ groupQualified rows j))
        ∧ ((∀ i, i < headers.length → ¬ groupQualified rows i) → gIdx = 0) := by
  refine ⟨fun rows' => by simp [infer_default_columns],
    fun headers' => by simp [infer_default_columns], ?_⟩
  have hcond : ¬(headers = [] ∨ rows = []) := by
    push_neg
    exact ⟨hh, hr⟩
  have hpos : 0 < headers.length := List.length_pos.mpr hh
  have hAgg := aggScan_cases headers rows
  have hGrp := groupScan_cases headers rows
  rcases Classical.em (∃ i, i < headers.length ∧ 1/2 ≤ colNumFrac rows i) with hexA | hexA
  all_goals rcases Classical.em (∃ i, i < headers.length ∧ groupQualified rows i)
    with hexG | hexG
  · obtain ⟨k, hk, heqA, hA1, hA2, hA3⟩ := hAgg.1 hexA
    obtain ⟨k', hk', heqG, hG1, hG2⟩ := hGrp.1 hexG
    refine ⟨k', k, hk', hk, ?_, fun _ => ⟨hA1, hA2, hA3⟩, ?_, fun _ => ⟨hG1, hG2⟩, ?_⟩
    · rw [infer_default_columns, if_neg hcond]
      simp only [heqA, heqG, Option.getD_some]
      rw [get?_of_lt hk', get?_of_lt hk]
      rfl
    · intro hall
      obtain ⟨i, hi, hle⟩ := hexA
      exact absurd (hall i hi) (not_lt.mpr hle)
    · intro hall
      obtain ⟨i, hi, hq⟩ := hexG
      exact absurd hq (hall i hi)
  · obtain ⟨k, hk, heqA, hA1, hA2, hA3⟩ := hAgg.1 hexA
    have heqG := hGrp.2 (fun i hi hq => hexG ⟨i, hi, hq⟩)
    refine ⟨0, k, hpos, hk, ?_, fun _ => ⟨hA1, hA2, hA3⟩, ?_, ?_, fun _ => rfl⟩
    · rw [infer_default_columns, if_neg hcond]
      simp only [heqA, heqG, Option.getD_some, Option.getD_none]
      rw [get?_of_lt hpos, get?_of_lt hk]
      rfl
    · intro hall
      obtain ⟨i, hi, hle⟩ := hexA
      exact absurd (hall i hi) (not_lt.mpr hle)
    · intro hex
      exact absurd hex hexG
  · have heqA := hAgg.2 (fun i hi => not_le.mp (fun hle => hexA ⟨i, hi, hle⟩))
    obtain ⟨k', hk', heqG, hG1, hG2⟩ := hGrp.1 hexG
    have hfb : (if 1 < headers.length then 1 else 0) < headers.length := by
      split <;> omega
    refine ⟨k', if 1 < headers.length then 1 else 0, hk', hfb, ?_, ?_,
      fun _ => rfl, fun _ => ⟨hG1, hG2⟩, ?_⟩
    · rw [infer_default_columns, if_neg hcond]
      simp only [heqA, heqG, Option.getD_some, Option.getD_none]
      rw [get?_of_lt hk', get?_of_lt hfb]
      rfl
    · intro hex
      exact absurd hex hexA
    · intro hall
      obtain ⟨i, hi, hq⟩ := hexG
      exact absurd hq (hall i hi)
  · have heqA := hAgg.2 (fun i hi => not_le.mp (fun hle => hexA ⟨i, hi, hle⟩))
    have heqG := hGrp.2 (fun i hi hq => hexG ⟨i, hi, hq⟩)
    have hfb : (if 1 < headers.length then 1 else 0) < headers.length := by
      split <;> omega
    refine ⟨0, if 1 < headers.length then 1 else 0, hpos, hfb, ?_, ?_, fun _ => rfl,
      ?_, fun _ => rfl⟩
    · rw [infer_default_columns, if_neg hcond]
      simp only [heqA, heqG, Option.getD_none]
      rw [get?_of_lt hpos, get?_of_lt hfb]
      rfl
    · intro hex
      exact absurd hex hexA
    · intro hex
      exact absurd hex hexG

theorem lookupName_dictInsert (m : List (String × ℕ)) (k k' : String) (v : ℕ) :
    lookupName (dictInsert m k v) k' =
      if k = k' then some v else lookupName m k' := by
  induction m with
  | nil =>
    by_cases h : k = k'
    · simp [dictInsert, lookupName, h]
    · simp [dictInsert, lookupName, h]
  | cons p t ih =>
    obtain ⟨a, b⟩ := p
    by_cases hak : a = k
    · subst hak
      by_cases hk' : a = k'
      · subst hk'
        simp [dictInsert, lookupName]
      · simp [dictInsert, lookupName, hk']
    · by_cases hk : k = k'
      · subst hk
        have hak' : ¬ a = k := hak
        simp only [dictInsert, if_neg hak, lookupName, if_neg hak']
        rw [ih]
        simp
      · by_cases hax : a = k'
        · subst hax
          simp [dictInsert, hak, lookupName, hk]
        · simp only [dictInsert, if_neg hak, lookupName, if_neg hax]
          rw [ih, if_neg hk]

theorem lookupName_nameToIdxFrom :
    ∀ (l : List String) (i : ℕ) (m : List (String × ℕ)) (k : String) (j : ℕ),
      lookupName (nameToIdxFrom i m l) k = some j →
      (∃ p, p < l.length ∧ j = i + p ∧ l.getD p "" = k ∧
        ∀ q, p < q → q < l.length → l.getD q "" ≠ k)
      ∨ (lookupName m k = some j ∧ ¬ k ∈ l) := by
  intro l
  induction l with
  | nil => intro i m k j h; exact Or.inr ⟨h, by simp⟩
  | cons h t ih =>
    intro i m k j hlook
    have hstep : nameToIdxFrom i m (h :: t) = nameToIdxFrom (i + 1) (dictInsert m h i) t := rfl
    rw [hstep] at hlook
    rcases ih (i + 1) (dictInsert m h i) k j hlook with ⟨p, hp, hj, hget, hlast⟩ | ⟨hm, hnot⟩
    · left
      refine ⟨p + 1, by simpa using hp, by omega, by simpa using hget, ?_⟩
      intro q hq1 hq2
      cases q with
      | zero => omega
      | succ q => simpa using hlast q (by omega) (by simpa using hq2)
    · rw [lookupName_dictInsert] at hm
      by_cases hhk : h = k
      · rw [if_pos hhk] at hm
        injection hm with hji
        left
        refine ⟨0, by simp, by omega, by simpa using hhk, ?_⟩
        intro q hq1 hq2
        cases q with
        | zero => omega
        | succ q =>
          intro hcontra
          exact hnot (hcontra ▸ getD_mem (by simpa using hq2))
      · rw [if_neg hhk] at hm
        right
        refine ⟨hm, ?_⟩
        intro hmem
        rcases List.mem_cons.mp hmem with h' | h'
        · exact hhk h'.symm
        · exact hnot h'

theorem lookupName_isSome_mono :
    ∀ (l : List String) (i : ℕ) (m : List (String × ℕ)) (k : String),
      (lookupName m k).isSome = true →
      (lookupName (nameToIdxFrom i m l) k).isSome = true := by
  intro l
  induction l with
  | nil => intro i m k h; exact h
  | cons h t ih =>
    intro i m k hsome
    apply ih (i + 1) (dictInsert m h i) k
    rw [lookupName_dictInsert]
    by_cases hhk : h = k
    · rw [if_pos hhk]; rfl
    · rw [if_neg hhk]; exact hsome

theorem lookupName_nameToIdxFrom_isSome :
    ∀ (l : List String) (i : ℕ) (m : List (String × ℕ)) (k : String), k ∈ l →
      (lookupName (nameToIdxFrom i m l) k).isSome = true := by
  intro l
  induction l with
  | nil => intro i m k h; simp at h
  | cons h t ih =>
    intro i m k hmem
    have hstep : nameToIdxFrom i m (h :: t) = nameToIdxFrom (i + 1) (dictInsert m h i) t := rfl
    rw [hstep]
    by_cases hht : k ∈ t
    · exact ih (i + 1) _ k hht
    · have hhk : h = k := by
        rcases List.mem_cons.mp hmem with h' | h'
        · exact h'.symm
        · exact absurd h' hht
      apply lookupName_isSome_mono
      rw [lookupName_dictInsert, if_pos hhk]
      rfl

theorem lookupName_nameToIdx_eq_some {headers : List String} {name : String} {j : ℕ}
    (h : lookupName (nameToIdx headers) name = some j) :
    j < headers.length ∧ headers.getD j "" = name ∧
      ∀ m, j < m → m < headers.length → headers.getD m "" ≠ name := by
  rcases lookupName_nameToIdxFrom headers 0 [] name j h with ⟨p, hp, hj, hget, hlast⟩ | ⟨hm, _⟩
  · have : j = p := by omega
    subst this
    exact ⟨hp, hget, hlast⟩
  · simp [lookupName] at hm

theorem lookupName_nameToIdx_isSome {headers : List String} {name : String}
    (h : name ∈ headers) : (lookupName (nameToIdx headers) name).isSome = true :=
  lookupName_nameToIdxFrom_isSome headers 0 [] name h

theorem rangeMap_getD (f : ℕ → ℚ) {n j : ℕ} (h : j < n) :
    ((List.range n).map f).getD j 0 = f j := by
  rw [List.getD_eq_getElem?_getD, List.getElem?_map, List.getElem?_range h]
  rfl

theorem mem_rangeMap {f : ℕ → ℚ} {n : ℕ} {r : ℚ} (h : r ∈ (List.range n).map f) :
    ∃ j, j < n ∧ r = f j := by
  obtain ⟨j, hj, hr⟩ := List.mem_map.mp h
  exact ⟨j, List.mem_range.mp hj, hr.symm⟩

theorem fallbackScan_cases (headers : List String) (rows : List (List String)) :
    ((∃ i, i < headers.length ∧ 1/2 ≤ is_numeric_enough rows i) →
      ∃ k, k < headers.length ∧ fallbackScan headers rows = some k ∧
        1/2 ≤ is_numeric_enough rows k ∧
        (∀ j, j < headers.length →
          is_numeric_enough rows j ≤ is_numeric_enough rows k) ∧
        (∀ j, k < j → j < headers.length →
          is_numeric_enough rows j < is_numeric_enough rows k))
    ∧ ((∀ i, i < headers.length → is_numeric_enough rows i < 1/2) →
        fallbackScan headers rows = none) := by
  constructor
  · rintro ⟨i, hi, hle⟩
    have hlen : ((List.range headers.length).map (is_numeric_enough rows)).length =
        headers.length := by simp
    have hex : ∃ r ∈ (List.range headers.length).map (is_numeric_enough rows), 1/2 ≤ r := by
      refine ⟨((List.range headers.length).map (is_numeric_enough rows)).getD i 0,
        getD_mem_of_lt 0 (by omega), ?_⟩
      rw [rangeMap_getD _ hi]
      exact hle
    obtain ⟨k, hk, heq, hge, hmax, hstrict⟩ :=
      aggLoop_of_exists _ 0 (1/2) none hex
    have hkn : k < headers.length := by omega
    refine ⟨k, hkn, by simpa [fallbackScan] using heq, ?_, ?_, ?_⟩
    · rw [rangeMap_getD _ hkn] at hge
      exact hge
    · intro j hj
      have := hmax j (by omega)
      rw [rangeMap_getD _ hj, rangeMap_getD _ hkn] at this
      exact this
    · intro j hkj hj
      have := hstrict j hkj (by omega)
      rw [rangeMap_getD _ hj, rangeMap_getD _ hkn] at this
      exact this
  · intro hall
    rw [fallbackScan]
    apply aggLoop_of_all_lt
    intro r hr
    obtain ⟨j, hj, hrj⟩ := mem_rangeMap hr
    exact hrj ▸ hall j hj

theorem prefOK_eq_true {d : List (String × ℕ)} {rows : List (List String)}
    {name : String} (h : prefOK d rows name = true) :
    ∃ i, lookupName d name = some i ∧ 1/2 ≤ is_numeric_enough rows i := by
  rw [prefOK] at h
  cases hl : lookupName d name with
  | none => rw [hl] at h; simp at h
  | some i =>
    rw [hl] at h
    exact ⟨i, rfl, of_decide_eq_true h⟩

/-- C5: `find_best_metric_column` returns the first preferred name that is
present among the headers (resolved through its name→index dict) and whose
column has numeric fraction at least 1/2 over the first 1000 rows; when no
preferred name qualifies it scans all columns with the non-strict `≥ 1/2`
update-on-tie rule (last column attaining the maximum wins) and returns
that header; it returns `none` on empty headers/rows or when no column
reaches the 1/2 threshold. -/
theorem c5_find_best_metric_column (headers : List String)
    (rows : List (List String)) (preferred : List String)
    (hh : headers ≠ []) (hr : rows ≠ []) :
    (∀ rows' preferred', find_best_metric_column [] rows' preferred' = none)
    ∧ (∀ headers' preferred', find_best_metric_column headers' [] preferred' = none)
    ∧ (∀ name, preferredPick (nameToIdx headers) rows preferred = some name →
        find_best_metric_column headers rows preferred = some name ∧
        name ∈ headers ∧
        (∃ i, lookupName (nameToIdx headers) name = some i ∧
          1/2 ≤ is_numeric_enough rows i) ∧
        ∃ k, k < preferred.length ∧ preferred.getD k "" = name ∧
          ∀ m, m < k → prefOK (nameToIdx headers) rows (preferred.getD m "") = false)
    ∧ (preferredPick (nameToIdx headers) rows preferred = none →
        (∃ i, i < headers.length ∧ 1/2 ≤ is_numeric_enough rows i) →
        ∃ k, k < headers.length ∧
          find_best_metric_column headers rows preferred = some (headers.getD k "") ∧
          1/2 ≤ is_numeric_enough rows k ∧
          (∀ j, j < headers.length →
            is_numeric_enough rows j ≤ is_numeric_enough rows k) ∧
          (∀ j, k < j → j < headers.length →
            is_numeric_enough rows j < is_numeric_enough rows k))
    ∧ ((∀ i, i < headers.length → is_numeric_enough rows i < 1/2) →
        find_best_metric_column headers rows preferred = none) := by
  have hcond : ¬(headers = [] ∨ rows = []) := by
    push_neg
    exact ⟨hh, hr⟩
  refine ⟨fun rows' preferred' => by simp [find_best_metric_column],
    fun headers' preferred' => by simp [find_best_metric_column], ?_, ?_, ?_⟩
  · intro name hpick
    have hbest : find_best_metric_column headers rows preferred = some name := by
      simp only [find_best_metric_column, if_neg hcond, hpick]
    have hOK : prefOK (nameToIdx headers) rows name = true := List.find?_some hpick
    obtain ⟨i, hlook, hge⟩ := prefOK_eq_true hOK
    obtain ⟨hi, hget, _⟩ := lookupName_nameToIdx_eq_some hlook
    obtain ⟨k, hk, hgetk, _, hfirst⟩ := find?_first (prefOK (nameToIdx headers) rows)
      preferred name hpick
    exact ⟨hbest, hget ▸ getD_mem hi, ⟨i, hlook, hge⟩, k, hk, hgetk, hfirst⟩
  · intro hpick hex
    obtain ⟨k, hk, hscan, hge, hmax, hstrict⟩ := (fallbackScan_cases headers rows).1 hex
    refine ⟨k, hk, ?_, hge, hmax, hstrict⟩
    simp only [find_best_metric_column, if_neg hcond, hpick, hscan, Option.bind_some,
      Option.some_bind]
    exact get?_of_lt hk
  · intro hall
    have hpick : preferredPick (nameToIdx headers) rows preferred = none := by
      cases hp : preferredPick (nameToIdx headers) rows preferred with
      | none => rfl
      | some name =>
        exfalso
        have hOK : prefOK (nameToIdx headers) rows name = true := List.find?_some hp
        obtain ⟨i, hlook, hge⟩ := prefOK_eq_true hOK
        obtain ⟨hi, _, _⟩ := lookupName_nameToIdx_eq_some hlook
        exact absurd hge (not_le.mpr (hall i hi))
    have hscan := (fallbackScan_cases headers rows).2 hall
    simp [find_best_metric_column, if_neg hcond, hpick, hscan]

/-- C6 (amended): a lookup through `headers.index` — the resolution used
by the Aggregator (`group_and_aggregate`) and the Row Filter
(`filter_rows_by_value`), both of which call `headerIndex` — yields the
*first* matching index, while the Metric Selector's dict
`name_to_idx = \x7bh: i for i, h in enumerate(headers)\x7d` resolves a
duplicated header name to its *last* matching index; both lookups succeed
for every present name. -/
theorem c6_lookup_resolution (headers : List String) (name : String) :
    (∀ j, headerIndex headers name = some j →
      j < headers.length ∧ headers.getD j "" = name ∧
        ∀ m, m < j → headers.getD m "" ≠ name)
    ∧ (∀ j, lookupName (nameToIdx headers) name = some j →
        j < headers.length ∧ headers.getD j "" = name ∧
          ∀ m, j < m → m < headers.length → headers.getD m "" ≠ name)
    ∧ (name ∈ headers →
        (headerIndex headers name).isSome = true ∧
        (lookupName (nameToIdx headers) name).isSome = true) := by
  refine ⟨fun j h => headerIndex_eq_some h,
    fun j h => lookupName_nameToIdx_eq_some h,
    fun h => ⟨headerIndex_isSome h, lookupName_nameToIdx_isSome h⟩⟩

theorem normalizeRow_length (n : ℕ) (row : List String) :
    (normalizeRow n row).length = n := by
  rw [normalizeRow, List.length_take, List.length_append, List.length_replicate]
  omega

section ConcreteEvaluation

attribute [local semireducible] Rat.add Rat.mul Rat.inv Rat.sub Rat.ofScientific

/-- C1: the Value Parser `_parse_float` returns not-numeric for `None` and
for strings empty after trimming; otherwise it strips at most one trailing
`%`, removes all commas, and returns the float parse of the remainder
(not-numeric on parse failure).  In particular `"1,234.5%"` parses to
1234.5, while `""`, `"  "` and `"abc"` are not numeric and `"-3"` parses
to -3. -/
theorem c1_parse_float_spec (s : String) :
    _parse_float none = none
    ∧ ((pyStrip s).data = [] → _parse_float (some s) = none)
    ∧ ((pyStrip s).data ≠ [] →
        _parse_float (some s) = pyFloat (removeCommas (stripPercent (pyStrip s))))
    ∧ (∀ u : String, u.data.getLast? = some '%' →
        (stripPercent u).data = u.data.dropLast)
    ∧ (∀ u : String, u.data.getLast? ≠ some '%' → stripPercent u = u)
    ∧ (∀ u : String, ¬ ',' ∈ (removeCommas u).data)
    ∧ _parse_float (some "1,234.5%") = some (2469/2)
    ∧ _parse_float (some "") = none
    ∧ _parse_float (some "  ") = none
    ∧ _parse_float (some "abc") = none
    ∧ _parse_float (some "-3") = some (-3) := by
  refine ⟨rfl, ?_, ?_, ?_, ?_, ?_, by decide, by decide, by decide, by decide, by decide⟩
  · intro h
    simp only [_parse_float]
    rw [if_pos h]
  · intro h
    simp only [_parse_float]
    rw [if_neg h]
  · intro u hu
    rw [stripPercent, if_pos hu]
  · intro u hu
    rw [stripPercent, if_neg hu]
  · intro u
    rw [removeCommas]
    intro hmem
    have := List.mem_filter.mp hmem
    simp at this

/-- C7: the parse step of `fetch_sheet_as_rows` returns empty headers and
rows for an empty table; otherwise the first row (trimmed) is the header
set, later rows that are entirely blank after trimming are dropped, every
kept row is padded/truncated to exactly the header count, and the kept
rows stay in their original order (they are a `filter` of the input,
mapped through length normalization). -/
theorem c7_parse_table (t : List (List String)) :
    parseTable [] = ([], [])
    ∧ ∀ first rest, t = first :: rest →
        (parseTable t).1 = first.map pyStrip
        ∧ (parseTable t).2 =
            (rest.filter hasNonBlankCell).map (normalizeRow (first.map pyStrip).length)
        ∧ ∀ r ∈ (parseTable t).2, r.length = (parseTable t).1.length := by
  refine ⟨rfl, ?_⟩
  intro first rest ht
  subst ht
  refine ⟨rfl, rfl, ?_⟩
  intro r hr
  obtain ⟨row, _, hrow⟩ := List.mem_map.mp hr
  rw [← hrow, normalizeRow_length]
  rfl

/-- C8: `fetch_sheet_as_rows` builds the gid export URL whenever a
(truthy) worksheet id is supplied, the sheet-name gviz URL otherwise, with
the argument percent-encoded treating no character as safe, and fails with
the invalid-arguments error exactly when neither identifier is supplied —
all before any network activity (`resolveUrl` models lines 40-45, which
precede the HTTP request). -/
theorem c8_url_resolution (sheet_id : String) (sheet_name gid : Option String) :
    (truthyOpt gid = true →
      resolveUrl sheet_id sheet_name gid =
        Except.ok ("https://docs.google.com/spreadsheets/d/" ++ sheet_id ++
          "/export?format=csv&gid=" ++ pyQuote (gid.getD "")))
    ∧ (truthyOpt gid = false → truthyOpt sheet_name = true →
        resolveUrl sheet_id sheet_name gid =
          Except.ok ("https://docs.google.com/spreadsheets/d/" ++ sheet_id ++
            "/gviz/tq?tqx=out:csv&sheet=" ++ pyQuote (sheet_name.getD "")))
    ∧ ((∃ e, resolveUrl sheet_id sheet_name gid = Except.error e) ↔
        (truthyOpt sheet_name = false ∧ truthyOpt gid = false))
    ∧ pyQuote "/" = "%2F" ∧ pyQuote " " = "%20"
    ∧ pyQuote "a-b.c_d~0Z" = "a-b.c_d~0Z" ∧ pyQuote "My Sheet" = "My%20Sheet" := by
  refine ⟨?_, ?_, ?_, by decide, by decide, by decide, by decide⟩
  · intro hgid
    rw [resolveUrl, if_pos hgid]
    rfl
  · intro hgid hname
    rw [resolveUrl, if_neg (by simp [hgid]), if_neg (by simp [hname])]
    rfl
  · constructor
    · rintro ⟨e, he⟩
      by_cases hgid : truthyOpt gid = true
      · rw [resolveUrl, if_pos hgid] at he
        exact Except.noConfusion he
      · have hgid' : truthyOpt gid = false := by simpa using hgid
        by_cases hname : truthyOpt sheet_name = true
        · rw [resolveUrl, if_neg (by simp [hgid']), if_neg (by simp [hname])] at he
          exact Except.noConfusion he
        · exact ⟨by simpa using hname, hgid'⟩
    · rintro ⟨hname, hgid⟩
      refine ⟨"Either sheet_name or gid must be provided", ?_⟩
      rw [resolveUrl, if_neg (by simp [hgid]), if_pos (by simp [hname])]

/-- C9: `filter_rows_by_value` returns `[]` when the headers are empty,
the rows are empty, or the column name is absent; otherwise it returns, in
original order, exactly the rows whose cell at the (first-match) column
index equals the target after trimming both sides — filtering the demo
dataset on `"Program"` with value `" A "` keeps the two rows whose trimmed
cell is `"A"`. -/
theorem c9_filter_rows (headers : List String) (rows : List (List String))
    (column_name value : String) :
    (headers = [] → filter_rows_by_value headers rows column_name value = [])
    ∧ (rows = [] → filter_rows_by_value headers rows column_name value = [])
    ∧ (¬ column_name ∈ headers →
        filter_rows_by_value headers rows column_name value = [])
    ∧ (∀ i, headerIndex headers column_name = some i →
        filter_rows_by_value headers rows column_name value =
          rows.filter (fun r =>
            match r[i]? with
            | some c => pyStrip c = pyStrip value
            | none => false))
    ∧ filter_rows_by_value demoHeaders demoRows "Program" " A " =
        [["A", "X", "10%"], ["A", "Y", "20%"]] := by
  refine ⟨?_, ?_, ?_, ?_, by decide⟩
  · intro h
    simp [filter_rows_by_value, h]
  · intro h
    simp [filter_rows_by_value, h]
  · intro h
    have hidx := headerIndex_eq_none h
    by_cases hcond : headers = [] ∨ rows = []
    · simp [filter_rows_by_value, hcond]
    · simp [filter_rows_by_value, hcond, hidx]
  · intro i hidx
    by_cases hrows : rows = []
    · simp [filter_rows_by_value, hrows]
    · have hne : headers ≠ [] := by
        intro h
        rw [h, headerIndex_nil] at hidx
        exact Option.noConfusion hidx
      have hcond : ¬(headers = [] ∨ rows = []) := by
        push_neg
        exact ⟨hne, hrows⟩
      simp only [filter_rows_by_value, if_neg hcond, hidx]

/-- C6 counterexample: with the duplicated header list `["A", "B", "A"]`
(first `"A"` column non-numeric, second numeric), the Metric Selector
accepts preferred name `"A"` because its dict resolves `"A"` to the last
index 2, whereas resolving every lookup to the first matching index (as
the claim states) would reject `"A"` and return `"B"`; `headers.index`
style lookup of `"A"` meanwhile gives 0. -/
theorem c6_counterexample :
    find_best_metric_column ["A", "B", "A"] [["x", "1", "2"]] ["A", "B"] = some "A"
    ∧ findBestMetricFirstIdx ["A", "B", "A"] [["x", "1", "2"]] ["A", "B"] = some "B"
    ∧ lookupName (nameToIdx ["A", "B", "A"]) "A" = some 2
    ∧ headerIndex ["A", "B", "A"] "A" = some 0 := by
  refine ⟨by decide, by decide, by decide, by decide⟩

/-- Witness for C1 at the input `" 7% "`. -/
theorem c1_witness :
    _parse_float (some " 7% ") =
      pyFloat (removeCommas (stripPercent (pyStrip " 7% "))) ∧
    _parse_float (some " 7% ") = some 7 :=
  ⟨((c1_parse_float_spec " 7% ").2.2.1 (by decide)), by decide⟩

/-- Witness for C2 on the spec's demo dataset. -/
theorem c2_witness :
    ∃ l, group_and_aggregate demoHeaders demoRows "Program" "CBR (%)" "avg" = some l ∧
      (∀ e ∈ l, bucketVals 0 2 demoRows e.group ≠ []) ∧
      group_and_aggregate demoHeaders demoRows "Program" "CBR (%)" "avg" =
        some [Entry.mk "A" 15, Entry.mk "B" 0] := by
  obtain ⟨l, hl, hprops, _⟩ := (c2_group_and_aggregate_buckets demoHeaders demoRows
    "Program" "CBR (%)" "avg" (by decide)).2 0 2 (by decide) (by decide)
  exact ⟨l, hl, fun e he => (hprops e he).1, by decide⟩

/-- Witness for C3 on the spec's demo dataset. -/
theorem c3_witness :
    ∃ l, group_and_aggregate demoHeaders demoRows "Program" "CBR (%)" "sum" = some l ∧
      List.Sorted entryLe l ∧ (l.map Entry.group).Nodup := by
  obtain ⟨_, l, hl, hsort, hnd, _⟩ := c3_group_and_aggregate_sorted demoHeaders demoRows
    "Program" "CBR (%)" "sum" 0 2 (by decide) (by decide) (by decide)
  exact ⟨l, hl, hsort, hnd⟩

/-- Witness for C10: the demo dataset is total; a one-cell row under a
two-column header makes the aggregate access fail. -/
theorem c10_witness :
    (group_and_aggregate demoHeaders demoRows "Program" "CBR (%)" "sum").isSome = true
    ∧ group_and_aggregate ["G", "V"] [["x"]] "G" "V" "sum" = none :=
  ⟨(c10_group_and_aggregate_bounds demoHeaders demoRows "Program" "CBR (%)" "sum").1
      (by decide),
    (c10_group_and_aggregate_bounds ["G", "V"] [["x"]] "G" "V" "sum").2 0 1
      (by decide) (by decide) ⟨["x"], by decide, by decide⟩⟩

/-- Witness for C4: on `exInferRows` (fractions 9/10, 9/10, 3/10) the
aggregate pick is the *last* maximal column `"B"`, the group-by pick is
`"C"`; empty inputs give `(none, none)`. -/
theorem c4_witness :
    infer_default_columns ["A", "B", "C"] exInferRows = (some "C", some "B")
    ∧ infer_default_columns [] [["x"]] = (none, none)
    ∧ infer_default_columns ["A"] [] = (none, none) := by
  have h := c4_infer_default_columns ["A", "B", "C"] exInferRows (by decide) (by decide)
  exact ⟨by decide, h.1 [["x"]], h.2.1 ["A"]⟩

/-- Witness for C5 on the spec's preferred-name scenario. -/
theorem c5_witness :
    find_best_metric_column demoHeaders demoRows ["Response", "CBR (%)"] =
      some "CBR (%)" ∧
    "CBR (%)" ∈ demoHeaders := by
  obtain ⟨hbest, hmem, _, _⟩ := (c5_find_best_metric_column demoHeaders demoRows
    ["Response", "CBR (%)"] (by decide) (by decide)).2.2.1 "CBR (%)" (by decide)
  exact ⟨hbest, hmem⟩

/-- Witness for C6's amended statement on the duplicated header list. -/
theorem c6_witness :
    headerIndex ["A", "B", "A"] "A" = some 0 ∧
    lookupName (nameToIdx ["A", "B", "A"]) "A" = some 2 ∧
    (["A", "B", "A"] : List String).getD 0 "" = "A" ∧
    (["A", "B", "A"] : List String).getD 2 "" = "A" := by
  have h := c6_lookup_resolution ["A", "B", "A"] "A"
  have h1 := h.1 0 (by decide)
  have h2 := h.2.1 2 (by decide)
  exact ⟨by decide, by decide, h1.2.1, h2.2.1⟩

/-- Witness for C7 on a concrete ragged table with a blank row. -/
theorem c7_witness :
    (parseTable [[" H1 ", "H2"], ["", " "], ["a"], ["a", "b", "c"]]).1 =
      [" H1 ", "H2"].map pyStrip
    ∧ ∀ r ∈ (parseTable [[" H1 ", "H2"], ["", " "], ["a"], ["a", "b", "c"]]).2,
        r.length = 2 := by
  obtain ⟨_, hmain⟩ := c7_parse_table [[" H1 ", "H2"], ["", " "], ["a"], ["a", "b", "c"]]
  obtain ⟨hhd, _, hlen⟩ := hmain [" H1 ", "H2"] [["", " "], ["a"], ["a", "b", "c"]] rfl
  exact ⟨hhd, fun r hr => hlen r hr⟩

/-- Witness for C8 at concrete identifiers. -/
theorem c8_witness :
    resolveUrl "SID" (some "My Sheet") (some "7 7") =
      Except.ok
        "https://docs.google.com/spreadsheets/d/SID/export?format=csv&gid=7%207"
    ∧ resolveUrl "SID" (some "My Sheet") none =
      Except.ok
        "https://docs.google.com/spreadsheets/d/SID/gviz/tq?tqx=out:csv&sheet=My%20Sheet"
    ∧ (∃ e, resolveUrl "SID" none (some "") = Except.error e) := by
  have h1 := (c8_url_resolution "SID" (some "My Sheet") (some "7 7")).1 (by decide)
  have h2 := (c8_url_resolution "SID" (some "My Sheet") none).2.1 (by decide) (by decide)
  have h3 := (c8_url_resolution "SID" none (some "")).2.2.1.mpr ⟨by decide, by decide⟩
  exact ⟨by rw [h1]; rfl, by rw [h2]; rfl, h3⟩

/-- Witness for C9 on the spec's trim-matching scenario. -/
theorem c9_witness :
    filter_rows_by_value demoHeaders demoRows "Program" " A " =
      [["A", "X", "10%"], ["A", "Y", "20%"]]
    ∧ filter_rows_by_value demoHeaders demoRows "Missing" "A" = [] := by
  have h := c9_filter_rows demoHeaders demoRows "Program" " A "
  have h2 := (c9_filter_rows demoHeaders demoRows "Missing" "A").2.2.1 (by decide)
  exact ⟨h.2.2.2.2, h2⟩

end ConcreteEvaluation

end Yamanaka
